import Mathlib

/-!
Verification of the nisarqa tiled raster reduction engine.

Definitions are shallow embeddings of the Python sources under
src/src/nisarqa (chiefly products/rslc.py and parameters/rslc_params.py).
Where a function of the repository is referenced but its module is not
among the source files (the utils tiling/multilook/calc modules), the
definition is modelled from the specification and says so in its
doc comment.
-/

namespace Nisarqa

/-! ### IEEE-754 half/single precision and the complex-float16 decoder

Embeds `ComplexFloat16Decoder` from src/src/nisarqa/products/rslc.py
(lines 310-374).  An on-disk sample stores the real and imaginary parts
each as an IEEE-754 half-precision (binary16) value; reads decode each
16-bit half independently to single precision (binary32). -/

/-- IEEE-754 binary16 bit fields: sign, 5-bit exponent, 10-bit fraction.
This is one component of the on-disk `complex32` struct dtype
`[(r, float16), (i, float16)]` built in `read_c4_dataset_as_c8`. -/
structure Float16 where
  sign : Bool
  exp : Fin 32
  frac : Fin 1024
  deriving DecidableEq

instance : Inhabited Float16 := ⟨⟨false, 0, 0⟩⟩

/-- Rational value denoted by a finite binary16 bit pattern
(exponent bias 15; exponent 0 is subnormal with scale 2^(1-15)). -/
def Float16.toRat (x : Float16) : ℚ :=
  let s : ℚ := if x.sign then -1 else 1
  if x.exp.val = 0 then
    s * ((x.frac.val : ℚ) / 2 ^ 10) * (2 / 2 ^ 15)
  else
    s * (1 + (x.frac.val : ℚ) / 2 ^ 10) * (2 ^ x.exp.val / 2 ^ 15)

/-- Whether a binary16 pattern denotes a finite value (exponent ≠ 0b11111). -/
def Float16.isFinite (x : Float16) : Prop := x.exp.val ≠ 31

instance (x : Float16) : Decidable x.isFinite := by
  unfold Float16.isFinite; infer_instance

/-- IEEE-754 binary32 bit fields: sign, 8-bit exponent, 23-bit fraction.
The component type of the `numpy.complex64` values that
`read_c4_dataset_as_c8` returns. -/
structure Float32 where
  sign : Bool
  exp : Fin 256
  frac : Fin 8388608
  deriving DecidableEq

instance : Inhabited Float32 := ⟨⟨false, 0, 0⟩⟩

/-- Rational value denoted by a finite binary32 bit pattern
(exponent bias 127; exponent 0 is subnormal with scale 2^(1-127)). -/
def Float32.toRat (x : Float32) : ℚ :=
  let s : ℚ := if x.sign then -1 else 1
  if x.exp.val = 0 then
    s * ((x.frac.val : ℚ) / 2 ^ 23) * (2 / 2 ^ 127)
  else
    s * (1 + (x.frac.val : ℚ) / 2 ^ 23) * (2 ^ x.exp.val / 2 ^ 127)

theorem widen_exp_bound (m : ℕ) (hm : m ≠ 0) (hlt : m < 1024) :
    Nat.log2 m + 103 < 256 := by
  have h : Nat.log2 m < 10 := (Nat.log2_lt hm).mpr hlt
  omega

theorem widen_frac_bound (m : ℕ) (hm : m ≠ 0) (hlt : m < 1024) :
    (m - 2 ^ Nat.log2 m) * 2 ^ (23 - Nat.log2 m) < 8388608 := by
  have h9 : Nat.log2 m < 10 := (Nat.log2_lt hm).mpr hlt
  have hub : m < 2 ^ (Nat.log2 m + 1) := Nat.lt_log2_self
  have hsub : m - 2 ^ Nat.log2 m < 2 ^ Nat.log2 m := by
    have : 2 ^ (Nat.log2 m + 1) = 2 ^ Nat.log2 m + 2 ^ Nat.log2 m := by
      rw [pow_succ]; omega
    omega
  calc (m - 2 ^ Nat.log2 m) * 2 ^ (23 - Nat.log2 m)
      < 2 ^ Nat.log2 m * 2 ^ (23 - Nat.log2 m) :=
        (Nat.mul_lt_mul_right (pow_pos (by norm_num) _)).mpr hsub
    _ = 2 ^ 23 := by
        rw [← pow_add, Nat.add_sub_cancel' (by omega : Nat.log2 m ≤ 23)]
    _ = 8388608 := by norm_num

/-- Widening conversion binary16 → binary32, the `astype` step of
`read_c4_dataset_as_c8` that converts each half independently
(normal values re-bias the exponent by 127 − 15 = 112 and pad the
fraction by 13 bits; subnormal halves renormalize). -/
def widenF16 (x : Float16) : Float32 :=
  if hexp : x.exp.val = 0 then
    if hfrac : x.frac.val = 0 then
      ⟨x.sign, 0, 0⟩
    else
      ⟨x.sign,
        ⟨Nat.log2 x.frac.val + 103, widen_exp_bound _ hfrac x.frac.isLt⟩,
        ⟨(x.frac.val - 2 ^ Nat.log2 x.frac.val) * 2 ^ (23 - Nat.log2 x.frac.val),
          widen_frac_bound _ hfrac x.frac.isLt⟩⟩
  else
    ⟨x.sign,
      ⟨x.exp.val + 112, by have h := x.exp.isLt; omega⟩,
      ⟨x.frac.val * 2 ^ 13, by have h := x.frac.isLt; omega⟩⟩

theorem widenF16_toRat (x : Float16) (hfin : x.isFinite) :
    (widenF16 x).toRat = x.toRat := by
  unfold Float16.isFinite at hfin
  unfold widenF16
  split
  case isTrue hexp =>
    split
    case isTrue hfrac =>
      simp [Float16.toRat, Float32.toRat, hexp, hfrac]
    case isFalse hfrac =>
      have hm0 : x.frac.val ≠ 0 := hfrac
      have hlb : 2 ^ Nat.log2 x.frac.val ≤ x.frac.val := Nat.log2_self_le hm0
      have h9 : Nat.log2 x.frac.val < 10 := (Nat.log2_lt hm0).mpr x.frac.isLt
      simp only [Float16.toRat, Float32.toRat]
      rw [if_neg (by simp :
            ¬((⟨Nat.log2 x.frac.val + 103,
                widen_exp_bound _ hfrac x.frac.isLt⟩ : Fin 256).val = 0)),
        if_pos hexp]
      push_cast [Nat.cast_sub hlb]
      rw [pow_add]
      have key : (2 : ℚ) ^ (23 - Nat.log2 x.frac.val) * 2 ^ Nat.log2 x.frac.val = 2 ^ 23 := by
        rw [← pow_add, Nat.sub_add_cancel (by omega : Nat.log2 x.frac.val ≤ 23)]
      generalize (2 : ℚ) ^ (23 - Nat.log2 x.frac.val) = b at key
      generalize (2 : ℚ) ^ Nat.log2 x.frac.val = a at key hlb
      cases hsgn : x.sign
      case false =>
        simp only [hsgn, Bool.false_eq_true, if_false]
        field_simp
        linear_combination ((x.frac.val : ℚ) - a) * 2 ^ 128 * key
      case true =>
        simp only [hsgn, if_true]
        field_simp
        linear_combination (a - (x.frac.val : ℚ)) * 2 ^ 128 * key
  case isFalse hexp =>
    simp only [Float16.toRat, Float32.toRat]
    rw [if_neg (by simp :
          ¬((⟨x.exp.val + 112, by have h := x.exp.isLt; omega⟩ : Fin 256).val = 0)),
      if_neg hexp]
    push_cast
    have hkk : (2 : ℚ) ^ (x.exp.val + 112) = 2 ^ x.exp.val * 2 ^ 112 := by
      rw [pow_add]
    rw [hkk]
    field_simp
    ring

/-- Numpy dtype tags relevant to the decoder: `complex64` (native pair of
binary32) and the packed pair-of-binary16 struct dtype called complex32 in
the source comments. -/
inductive NumpyDType
  | complex64
  | complex32
  deriving DecidableEq

/-- An HDF5 dataset of complex-float16 samples: a 2D array whose elements
each hold a real and an imaginary binary16 component, as wrapped by
`ComplexFloat16Decoder` (rslc.py line 330). -/
structure HalfComplexDataset where
  data : List (List (Float16 × Float16))

/-- Number of rows of the wrapped dataset. -/
def HalfComplexDataset.nrows (ds : HalfComplexDataset) : ℕ := ds.data.length

/-- Number of columns of the wrapped dataset. -/
def HalfComplexDataset.ncols (ds : HalfComplexDataset) : ℕ :=
  (ds.data.headD []).length

/-- Shape of the wrapped dataset, as exposed by h5py. -/
def HalfComplexDataset.shape (ds : HalfComplexDataset) : ℕ × ℕ :=
  (ds.nrows, ds.ncols)

/-- Dimensionality of the wrapped dataset (2D rasters). -/
def HalfComplexDataset.ndim (_ : HalfComplexDataset) : ℕ := 2

/-- Result buffer of a decoded read: a complex64 numpy array, carrying its
dtype tag and the decoded (pairs of binary32) entries. -/
structure Complex64Buffer where
  dtype : NumpyDType
  data : List (List (Float32 × Float32))

/-- Embedding of `ComplexFloat16Decoder.read_c4_dataset_as_c8`
(rslc.py lines 338-357): select the rectangular index range
[r0, r1) × [c0, c1) of the dataset, decode each element's two binary16
halves independently to binary32 (`z.astype(complex64)`), and view the
result as native complex64. -/
def read_c4_dataset_as_c8 (ds : HalfComplexDataset) (r0 r1 c0 c1 : ℕ) :
    Complex64Buffer where
  dtype := NumpyDType.complex64
  data := ((ds.data.drop r0).take (r1 - r0)).map fun row =>
    ((row.drop c0).take (c1 - c0)).map fun z => (widenF16 z.1, widenF16 z.2)

/-- Embedding of the `ComplexFloat16Decoder` duck-array wrapper
(rslc.py lines 310-374): it stores the wrapped dataset and decodes on
indexed reads. -/
structure ComplexFloat16Decoder where
  dataset : HalfComplexDataset

/-- The decoder's `dtype` property, hard-wired to `numpy.complex64`
(rslc.py line 332). -/
def ComplexFloat16Decoder.dtype (_ : ComplexFloat16Decoder) : NumpyDType :=
  NumpyDType.complex64

/-- The decoder's `shape` property, delegated to the wrapped dataset. -/
def ComplexFloat16Decoder.shape (d : ComplexFloat16Decoder) : ℕ × ℕ :=
  d.dataset.shape

/-- The decoder's `ndim` property, delegated to the wrapped dataset. -/
def ComplexFloat16Decoder.ndim (d : ComplexFloat16Decoder) : ℕ :=
  d.dataset.ndim

/-- The decoder's `__getitem__` (rslc.py lines 334-336): decode the wrapped
dataset on the fly for the requested range. -/
def ComplexFloat16Decoder.getitem (d : ComplexFloat16Decoder)
    (r0 r1 c0 c1 : ℕ) : Complex64Buffer :=
  read_c4_dataset_as_c8 d.dataset r0 r1 c0 c1

/-- Binary16 bit pattern of 3.5 (sign 0, exponent 16, fraction 768). -/
def sampleThreePointFive : Float16 :=
  ⟨false, ⟨16, by norm_num⟩, ⟨768, by norm_num⟩⟩

/-- Binary16 bit pattern of −2.25 (sign 1, exponent 16, fraction 128). -/
def sampleNegTwoPointTwoFive : Float16 :=
  ⟨true, ⟨16, by norm_num⟩, ⟨128, by norm_num⟩⟩

/-- A one-sample dataset holding the complex value 3.5 − 2.25i. -/
def exampleDataset : HalfComplexDataset :=
  ⟨[[(sampleThreePointFive, sampleNegTwoPointTwoFive)]]⟩

/-- C2: for every rectangular index range of a complex-float16 dataset,
`read_c4_dataset_as_c8` returns a complex64 buffer covering exactly that
range, each component being the binary16 half widened independently to
binary32, and the widening preserves the denoted value exactly for every
finite half-precision input. -/
theorem read_c4_dataset_as_c8_exact_range_and_fidelity
    (ds : HalfComplexDataset) (r0 r1 c0 c1 : ℕ)
    (hr1 : r1 ≤ ds.nrows)
    (hrect : ∀ row ∈ ds.data, row.length = ds.ncols)
    (hc1 : c1 ≤ ds.ncols) :
    (read_c4_dataset_as_c8 ds r0 r1 c0 c1).dtype = NumpyDType.complex64 ∧
    (read_c4_dataset_as_c8 ds r0 r1 c0 c1).data.length = r1 - r0 ∧
    (∀ row ∈ (read_c4_dataset_as_c8 ds r0 r1 c0 c1).data,
      row.length = c1 - c0) ∧
    (∀ i j, i < r1 - r0 → j < c1 - c0 →
      (((read_c4_dataset_as_c8 ds r0 r1 c0 c1).data.getD i []).getD j default =
        (widenF16 ((ds.data.getD (r0 + i) []).getD (c0 + j) default).1,
         widenF16 ((ds.data.getD (r0 + i) []).getD (c0 + j) default).2))) ∧
    (∀ z : Float16, z.isFinite → (widenF16 z).toRat = z.toRat) := by
  have hlen : (read_c4_dataset_as_c8 ds r0 r1 c0 c1).data.length = r1 - r0 := by
    simp only [read_c4_dataset_as_c8, List.length_map, List.length_take,
      List.length_drop]
    have h := hr1
    unfold HalfComplexDataset.nrows at h
    omega
  refine ⟨rfl, hlen, ?_, ?_, fun z hz => widenF16_toRat z hz⟩
  · intro row hrow
    simp only [read_c4_dataset_as_c8, List.mem_map] at hrow
    obtain ⟨row0, hrow0, hrw⟩ := hrow
    have hmem : row0 ∈ ds.data :=
      List.drop_subset r0 ds.data (List.take_subset _ _ hrow0)
    have hlen0 : row0.length = ds.ncols := hrect row0 hmem
    subst hrw
    simp only [List.length_map, List.length_take, List.length_drop, hlen0]
    omega
  · intro i j hi hj
    have hrlt : r0 + i < ds.data.length := by
      have h := hr1
      unfold HalfComplexDataset.nrows at h
      omega
    have hrowlen : (ds.data[r0 + i]).length = ds.ncols :=
      hrect _ (List.getElem_mem hrlt)
    have hclt : c0 + j < (ds.data[r0 + i]).length := by omega
    have hi2 : i < (read_c4_dataset_as_c8 ds r0 r1 c0 c1).data.length := by
      omega
    rw [List.getD_eq_getElem _ _ hi2]
    have e1 : (read_c4_dataset_as_c8 ds r0 r1 c0 c1).data[i] =
        (((ds.data[r0 + i]).drop c0).take (c1 - c0)).map
          (fun z => (widenF16 z.1, widenF16 z.2)) := by
      simp only [read_c4_dataset_as_c8]
      rw [List.getElem_map, List.getElem_take, List.getElem_drop]
    rw [e1]
    have hj2 : j < ((((ds.data[r0 + i]).drop c0).take (c1 - c0)).map
        (fun z => (widenF16 z.1, widenF16 z.2))).length := by
      simp only [List.length_map, List.length_take, List.length_drop]
      omega
    rw [List.getD_eq_getElem _ _ hj2]
    rw [List.getElem_map, List.getElem_take, List.getElem_drop]
    rw [List.getD_eq_getElem _ _ hrlt, List.getD_eq_getElem _ _ hclt]

/-- C2 witness: decoding the 1×1 range of a dataset holding the packed
half-precision sample (r = 3.5, i = −2.25) yields exactly complex64
(3.5, −2.25). -/
theorem read_c4_dataset_as_c8_witness :
    ((read_c4_dataset_as_c8 exampleDataset 0 1 0 1).dtype =
      NumpyDType.complex64 ∧
    (read_c4_dataset_as_c8 exampleDataset 0 1 0 1).data.length = 1 - 0 ∧
    (∀ row ∈ (read_c4_dataset_as_c8 exampleDataset 0 1 0 1).data,
      row.length = 1 - 0) ∧
    (∀ i j, i < 1 - 0 → j < 1 - 0 →
      (((read_c4_dataset_as_c8 exampleDataset 0 1 0 1).data.getD i []).getD j
          default =
        (widenF16
          ((exampleDataset.data.getD (0 + i) []).getD (0 + j) default).1,
         widenF16
          ((exampleDataset.data.getD (0 + i) []).getD (0 + j) default).2))) ∧
    (∀ z : Float16, z.isFinite → (widenF16 z).toRat = z.toRat)) ∧
    sampleThreePointFive.toRat = 7 / 2 ∧
    sampleNegTwoPointTwoFive.toRat = -9 / 4 ∧
    (widenF16 sampleThreePointFive).toRat = 7 / 2 ∧
    (widenF16 sampleNegTwoPointTwoFive).toRat = -9 / 4 :=
  ⟨read_c4_dataset_as_c8_exact_range_and_fidelity exampleDataset 0 1 0 1
      (by decide) (by decide) (by decide),
    by norm_num [sampleThreePointFive, Float16.toRat],
    by norm_num [sampleNegTwoPointTwoFive, Float16.toRat],
    by norm_num [sampleThreePointFive, widenF16, Float32.toRat],
    by norm_num [sampleNegTwoPointTwoFive, widenF16, Float32.toRat]⟩

/-- C10: the decoder's `dtype` property and the dtype of every indexed read
are `numpy.complex64`; its `shape` and `ndim` equal those of the wrapped
dataset; and reads leave the wrapped dataset untouched (`getitem` is the
pure decoded read of the unchanged dataset). -/
theorem ComplexFloat16Decoder_invariants
    (ds : HalfComplexDataset) (r0 r1 c0 c1 : ℕ) :
    (ComplexFloat16Decoder.mk ds).dtype = NumpyDType.complex64 ∧
    ((ComplexFloat16Decoder.mk ds).getitem r0 r1 c0 c1).dtype =
      NumpyDType.complex64 ∧
    (ComplexFloat16Decoder.mk ds).shape = ds.shape ∧
    (ComplexFloat16Decoder.mk ds).ndim = ds.ndim ∧
    (ComplexFloat16Decoder.mk ds).dataset = ds ∧
    (ComplexFloat16Decoder.mk ds).getitem r0 r1 c0 c1 =
      read_c4_dataset_as_c8 ds r0 r1 c0 c1 :=
  ⟨rfl, rfl, rfl, rfl, rfl, rfl⟩

/-! ### Percentile clipping: calc_vmin_vmax and clip_array

Embeds `calc_vmin_vmax` (rslc.py lines 1673-1705) and `clip_array`
(rslc.py lines 1164-1187).  `np.quantile` with its default linear
interpolation is modelled on rational data. -/

/-- Model of `numpy.quantile(data, q)` with the default linear
interpolation: sort ascending, take the value at fractional position
q·(n−1), interpolating between the two neighbouring order statistics. -/
def npQuantile (data : List ℚ) (q : ℚ) : ℚ :=
  let s := data.insertionSort (· ≤ ·)
  let n := s.length
  if n = 0 then 0
  else
    let pos : ℚ := q * ((n : ℚ) - 1)
    let i : ℕ := pos.floor.toNat
    let lo := s.getD (min i (n - 1)) 0
    let hi := s.getD (min (i + 1) (n - 1)) 0
    lo + (pos - (i : ℚ)) * (hi - lo)

/-- Embedding of `calc_vmin_vmax` (rslc.py lines 1698-1705): the values of
the (50·(1−p/100))th and (100−50·(1−p/100))th percentiles of the data. -/
def calc_vmin_vmax (data_in : List ℚ) (middle_percentile : ℚ) : ℚ × ℚ :=
  let fraction := 1 / 2 * (1 - middle_percentile / 100)
  (npQuantile data_in fraction, npQuantile data_in (1 - fraction))

/-- Embedding of `clip_array` (rslc.py lines 1183-1187): clip every element
into the [vmin, vmax] range computed by `calc_vmin_vmax`
(`np.clip` takes the max with vmin first, then the min with vmax). -/
def clip_array (arr : List ℚ) (middle_percentile : ℚ) : List ℚ :=
  let vm := calc_vmin_vmax arr middle_percentile
  arr.map fun x => min (max x vm.1) vm.2

theorem sorted_getD_leeq {s : List ℚ} (hs : List.Sorted (· ≤ ·) s)
    {i j : ℕ} (hij : i ≤ j) (hj : j < s.length) :
    s.getD i 0 ≤ s.getD j 0 := by
  rcases Nat.lt_or_ge i j with hlt | hge
  · rw [List.getD_eq_getElem _ _ (by omega), List.getD_eq_getElem _ _ hj]
    exact List.pairwise_iff_get.mp hs ⟨i, by omega⟩ ⟨j, hj⟩ hlt
  · have : i = j := by omega
    subst this
    exact le_refl _

theorem ratFloor_eq_intFloor (q : ℚ) : Rat.floor q = ⌊q⌋ :=
  le_antisymm (Int.le_floor.mpr (Rat.le_floor.mp (le_refl _)))
    (Rat.le_floor.mpr (Int.le_floor.mp (le_refl _)))

theorem npQuantile_zero (data : List ℚ) (h : data ≠ []) :
    npQuantile data 0 = (data.insertionSort (· ≤ ·)).getD 0 0 := by
  have hn : (data.insertionSort (· ≤ ·)).length ≠ 0 := by
    rw [List.length_insertionSort]
    simpa [List.length_eq_zero] using h
  simp only [npQuantile]
  rw [if_neg hn]
  simp [ratFloor_eq_intFloor]

theorem npQuantile_one (data : List ℚ) (h : data ≠ []) :
    npQuantile data 1 =
      (data.insertionSort (· ≤ ·)).getD
        ((data.insertionSort (· ≤ ·)).length - 1) 0 := by
  have hn : (data.insertionSort (· ≤ ·)).length ≠ 0 := by
    rw [List.length_insertionSort]
    simpa [List.length_eq_zero] using h
  simp only [npQuantile]
  rw [if_neg hn]
  rw [one_mul]
  have h1 : 1 ≤ (data.insertionSort (· ≤ ·)).length := by omega
  have hone : ((data.insertionSort (· ≤ ·)).length : ℚ) - 1 =
      (((data.insertionSort (· ≤ ·)).length - 1 : ℕ) : ℚ) := by
    push_cast [Nat.cast_sub h1]
    ring
  rw [hone, ratFloor_eq_intFloor, Int.floor_natCast, Int.toNat_natCast,
    min_self, min_eq_right (by omega : (data.insertionSort (· ≤ ·)).length - 1
      ≤ (data.insertionSort (· ≤ ·)).length - 1 + 1)]
  simp

/-- C6: with middle_percentile = 100, `calc_vmin_vmax` returns values that
are attained in the array and bound every element (the 0th and 100th
percentiles, i.e. the minimum and maximum), so `clip_array` returns the
input array unchanged. -/
theorem clip_array_is_identity_at_middle_percentile_100
    (arr : List ℚ) (h : arr ≠ []) :
    (calc_vmin_vmax arr 100).1 ∈ arr ∧
    (calc_vmin_vmax arr 100).2 ∈ arr ∧
    (∀ x ∈ arr, (calc_vmin_vmax arr 100).1 ≤ x ∧
      x ≤ (calc_vmin_vmax arr 100).2) ∧
    clip_array arr 100 = arr := by
  obtain ⟨s, hs⟩ : ∃ s, arr.insertionSort (· ≤ ·) = s := ⟨_, rfl⟩
  have hperm : s.Perm arr := by
    rw [← hs]
    exact List.perm_insertionSort _ arr
  have hsorted : List.Sorted (· ≤ ·) s := by
    rw [← hs]
    exact List.sorted_insertionSort _ arr
  have hn : s.length ≠ 0 := by
    have hlen := hperm.length_eq
    intro h0
    apply h
    rw [← List.length_eq_zero]
    omega
  have hfrac : (1 : ℚ) / 2 * (1 - (100 : ℚ) / 100) = 0 := by norm_num
  have hvm : calc_vmin_vmax arr 100 =
      (s.getD 0 0, s.getD (s.length - 1) 0) := by
    simp only [calc_vmin_vmax]
    rw [hfrac]
    rw [npQuantile_zero arr h]
    rw [show (1 : ℚ) - 0 = 1 by norm_num, npQuantile_one arr h]
    rw [hs]
  have hmem0 : s.getD 0 0 ∈ arr := by
    refine hperm.mem_iff.mp ?_
    rw [List.getD_eq_getElem _ _ (by omega)]
    exact List.getElem_mem _
  have hmemL : s.getD (s.length - 1) 0 ∈ arr := by
    refine hperm.mem_iff.mp ?_
    rw [List.getD_eq_getElem _ _ (by omega)]
    exact List.getElem_mem _
  have hbounds : ∀ x ∈ arr, s.getD 0 0 ≤ x ∧ x ≤ s.getD (s.length - 1) 0 := by
    intro x hx
    have hxs : x ∈ s := hperm.mem_iff.mpr hx
    obtain ⟨i, hi, hxi⟩ := List.getElem_of_mem hxs
    have hx0 : s.getD i 0 = x := by
      rw [List.getD_eq_getElem _ _ hi, hxi]
    constructor
    · rw [← hx0]
      exact sorted_getD_leeq hsorted (Nat.zero_le i) hi
    · rw [← hx0]
      exact sorted_getD_leeq hsorted (by omega) (by omega)
  refine ⟨by rw [hvm]; exact hmem0, by rw [hvm]; exact hmemL, ?_, ?_⟩
  · intro x hx
    rw [hvm]
    exact hbounds x hx
  · unfold clip_array
    rw [hvm]
    have hfix : ∀ x ∈ arr,
        min (max x (s.getD 0 0)) (s.getD (s.length - 1) 0) = x := by
      intro x hx
      obtain ⟨h1, h2⟩ := hbounds x hx
      rw [max_eq_left h1, min_eq_left h2]
    calc arr.map (fun x => min (max x (s.getD 0 0)) (s.getD (s.length - 1) 0))
        = arr.map id := List.map_congr_left (fun x hx => hfix x hx)
      _ = arr := List.map_id arr

/-- C6 witness: clipping the concrete array [3, 1, 2] at
middle_percentile = 100 returns it unchanged. -/
theorem clip_array_identity_witness :
    (calc_vmin_vmax [(3 : ℚ), 1, 2] 100).1 ∈ [(3 : ℚ), 1, 2] ∧
    (calc_vmin_vmax [(3 : ℚ), 1, 2] 100).2 ∈ [(3 : ℚ), 1, 2] ∧
    (∀ x ∈ [(3 : ℚ), 1, 2], (calc_vmin_vmax [(3 : ℚ), 1, 2] 100).1 ≤ x ∧
      x ≤ (calc_vmin_vmax [(3 : ℚ), 1, 2] 100).2) ∧
    clip_array [(3 : ℚ), 1, 2] 100 = [(3 : ℚ), 1, 2] :=
  clip_array_is_identity_at_middle_percentile_100 [(3 : ℚ), 1, 2]
    (by decide)

/-! ### Configuration validation (rslc_params.py, RSLCPowerImageParams)

Embeds the value-validation paths of `_get_nlooks_param`
(lines 499-526), `_get_gamma_param` (lines 750-765) and
`_get_tile_shape_param` (lines 809-826), and the eager validation order
of `__init__` (lines 415-425).  Validation errors are modelled as
`Except.error`. -/

/-- A runconfig value offered for an nlooks parameter: absent, a single
integer, a sequence of integers, or a value of any other type. -/
inductive NlooksInput
  | none
  | int (i : ℤ)
  | intList (l : List ℤ)
  | other
  deriving DecidableEq

/-- A validated nlooks value: a single integer or an accepted sequence. -/
inductive NlooksVal
  | single (i : ℤ)
  | pair (l : List ℤ)
  deriving DecidableEq

/-- Embedding of `RSLCPowerImageParams._get_nlooks_param`
(rslc_params.py lines 499-526), value paths: `None` keeps the default
value None; a single int must be positive; a sequence of ints must have
length two with every entry positive; anything else is rejected. -/
def get_nlooks_param : NlooksInput → Except String (Option NlooksVal)
  | NlooksInput.none => Except.ok Option.none
  | NlooksInput.int i =>
      if i ≤ 0 then
        Except.error "nlooks must be a positive int or sequence of two positive ints"
      else Except.ok (some (NlooksVal.single i))
  | NlooksInput.intList l =>
      if (∃ e ∈ l, e ≤ 0) ∨ ¬l.length = 2 then
        Except.error "nlooks must be a positive int or sequence of two positive ints"
      else Except.ok (some (NlooksVal.pair l))
  | NlooksInput.other =>
      Except.error "nlooks must be a str, Param, or None"

/-- A runconfig value offered for the gamma parameter. -/
inductive GammaInput
  | none
  | float (g : ℚ)
  | other
  deriving DecidableEq

/-- Embedding of `RSLCPowerImageParams._get_gamma_param`
(rslc_params.py lines 750-765), value paths: `None` keeps the default
value 1.0; a float must be non-negative; anything else is rejected. -/
def get_gamma_param : GammaInput → Except String ℚ
  | GammaInput.none => Except.ok 1
  | GammaInput.float g =>
      if g < 0 then Except.error "gamma must be a non-negative value"
      else Except.ok g
  | GammaInput.other => Except.error "gamma must be a float, Param, or None"

/-- A runconfig value offered for the tile_shape parameter. -/
inductive TileShapeInput
  | none
  | intList (l : List ℤ)
  | other
  deriving DecidableEq

/-- Embedding of `RSLCPowerImageParams._get_tile_shape_param`
(rslc_params.py lines 809-826), value paths: `None` keeps the default
value [1024, 1024]; a sequence of ints must have length two with every
entry strictly positive; anything else is rejected. -/
def get_tile_shape_param : TileShapeInput → Except String (List ℤ)
  | TileShapeInput.none => Except.ok [1024, 1024]
  | TileShapeInput.intList l =>
      if ¬l.length = 2 ∨ ∃ e ∈ l, e ≤ 0 then
        Except.error "tile_shape must be a sequence of two positive integers"
      else Except.ok l
  | TileShapeInput.other =>
      Except.error "tile_shape must be a sequence of two ints, a Param, or None"

/-- The runconfig values fed to the parameter constructor. -/
structure PowerImageConfigInput where
  nlooks_freqa : NlooksInput
  nlooks_freqb : NlooksInput
  gamma : GammaInput
  tile_shape : TileShapeInput

/-- The validated power-image parameters. -/
structure RSLCPowerImageParams where
  nlooks_freqa : Option NlooksVal
  nlooks_freqb : Option NlooksVal
  gamma : ℚ
  tile_shape : List ℤ

/-- Embedding of `RSLCPowerImageParams.__init__` (rslc_params.py lines
415-425): every field is validated eagerly at construction, in order,
before any image is processed. -/
def powerImageParams (c : PowerImageConfigInput) :
    Except String RSLCPowerImageParams := do
  let na ← get_nlooks_param c.nlooks_freqa
  let nb ← get_nlooks_param c.nlooks_freqb
  let g ← get_gamma_param c.gamma
  let t ← get_tile_shape_param c.tile_shape
  pure ⟨na, nb, g, t⟩

/-- Image frequency selector of `get_multilooked_power_image`. -/
inductive Freq
  | A
  | B
  deriving DecidableEq

/-- Embedding of the nlooks selection in `get_multilooked_power_image`
(rslc.py lines 997-1016): when the explicit per-frequency factor is None,
call `compute_square_pixel_nlooks` (passed here as `compute`, its module
not being among the source files); otherwise use the explicit factors
directly. -/
def select_nlooks (compute : ℕ × ℕ → ℚ × ℚ → ℚ → ℕ × ℕ)
    (shape : ℕ × ℕ) (spacing : ℚ × ℚ) (num_mpix : ℚ) :
    Freq → Option (ℕ × ℕ) → Option (ℕ × ℕ) → ℕ × ℕ
  | Freq.A, Option.none, _ => compute shape spacing num_mpix
  | Freq.B, _, Option.none => compute shape spacing num_mpix
  | Freq.A, some v, _ => v
  | Freq.B, _, some v => v

/-! ### Gamma correction (apply_gamma_correction, invert_gamma_correction)

Embeds `apply_gamma_correction` (rslc.py lines 1190-1224) and
`invert_gamma_correction` (rslc.py lines 1227-1264) over real arrays,
with real powers for the gamma exponent. -/

/-- Minimum of an array (`np.min`); 0 on the empty array. -/
noncomputable def arrayMin (arr : List ℝ) : ℝ := arr.min?.getD 0

/-- Maximum of an array (`np.max`); 0 on the empty array. -/
noncomputable def arrayMax (arr : List ℝ) : ℝ := arr.max?.getD 0

/-- Modelled from the spec: `nisarqa.normalize` (its utils module is not
among the source files), documented in `apply_gamma_correction` as scaling
the array to the range [0, 1] by its own minimum and maximum. -/
noncomputable def normalize (img_arr : List ℝ) : List ℝ :=
  img_arr.map fun x =>
    (x - arrayMin img_arr) / (arrayMax img_arr - arrayMin img_arr)

/-- Embedding of `apply_gamma_correction` (rslc.py lines 1218-1224):
normalize to [0, 1], then raise elementwise to the gamma exponent.
No validation of gamma is performed here. -/
noncomputable def apply_gamma_correction (img_arr : List ℝ) (gamma : ℝ) :
    List ℝ :=
  (normalize img_arr).map fun x => x ^ gamma

/-- Embedding of `invert_gamma_correction` (rslc.py lines 1258-1264):
raise elementwise to 1/gamma, then undo the normalization using the
pre-gamma vmin and vmax. -/
noncomputable def invert_gamma_correction (img_arr : List ℝ) (gamma : ℝ)
    (vmin vmax : ℝ) : List ℝ :=
  img_arr.map fun x => x ^ (1 / gamma) * (vmax - vmin) + vmin

theorem arrayMin_le_mem {arr : List ℝ} {x : ℝ} (hx : x ∈ arr) :
    arrayMin arr ≤ x := by
  unfold arrayMin
  rw [List.getD_min?_eq_untop'_minimum]
  have hle := List.minimum_le_of_mem' hx
  cases hmin : arr.minimum with
  | top =>
      exact absurd hmin (List.minimum_ne_top_of_ne_nil (List.ne_nil_of_mem hx))
  | coe m =>
      rw [hmin] at hle
      rw [WithTop.untop'_coe]
      exact WithTop.coe_le_coe.mp hle

theorem mem_le_arrayMax {arr : List ℝ} {x : ℝ} (hx : x ∈ arr) :
    x ≤ arrayMax arr := by
  unfold arrayMax
  rw [List.getD_max?_eq_unbot'_maximum]
  have hle := List.le_maximum_of_mem' hx
  cases hmax : arr.maximum with
  | bot =>
      exact absurd hmax (List.maximum_ne_bot_of_ne_nil (List.ne_nil_of_mem hx))
  | coe m =>
      rw [hmax] at hle
      rw [WithBot.unbot'_coe]
      exact WithBot.coe_le_coe.mp hle

/-- C3: for every array whose minimum is strictly below its maximum and
every positive gamma, `invert_gamma_correction` applied to the output of
`apply_gamma_correction`, with the pre-gamma (vmin, vmax), reproduces the
original array exactly. -/
theorem gamma_correction_round_trip (arr : List ℝ) (gamma : ℝ)
    (hg : 0 < gamma) (hlt : arrayMin arr < arrayMax arr) :
    invert_gamma_correction (apply_gamma_correction arr gamma) gamma
      (arrayMin arr) (arrayMax arr) = arr := by
  unfold invert_gamma_correction apply_gamma_correction normalize
  rw [List.map_map, List.map_map]
  have hne : arrayMax arr - arrayMin arr ≠ 0 := by
    intro hEq
    have h := hlt
    rw [sub_eq_zero] at hEq
    rw [hEq] at h
    exact lt_irrefl _ h
  refine Eq.trans (List.map_congr_left ?_) (List.map_id arr)
  intro x hx
  simp only [Function.comp_apply, id_eq]
  have h0 : 0 ≤ (x - arrayMin arr) / (arrayMax arr - arrayMin arr) := by
    apply div_nonneg
    · have h := arrayMin_le_mem hx
      linarith
    · linarith
  rw [← Real.rpow_mul h0, mul_one_div_cancel (ne_of_gt hg), Real.rpow_one,
    div_mul_cancel₀ _ hne, sub_add_cancel]

/-- C3 witness: the round trip at the concrete clipped array [0, 1/2, 2]
with gamma = 2.2 reproduces the array. -/
theorem gamma_correction_round_trip_witness :
    invert_gamma_correction
      (apply_gamma_correction [(0 : ℝ), 1 / 2, 2] (11 / 5)) (11 / 5)
      (arrayMin [(0 : ℝ), 1 / 2, 2]) (arrayMax [(0 : ℝ), 1 / 2, 2]) =
      [(0 : ℝ), 1 / 2, 2] :=
  gamma_correction_round_trip [(0 : ℝ), 1 / 2, 2] (11 / 5) (by norm_num)
    (by
      have h1 : arrayMin [(0 : ℝ), 1 / 2, 2] = 0 := by
        norm_num [arrayMin, List.min?, min_def]
      have h2 : arrayMax [(0 : ℝ), 1 / 2, 2] = 2 := by
        norm_num [arrayMax, List.max?, max_def]
      rw [h1, h2]
      norm_num)

/-- C7: a negative gamma is rejected when the parameters are constructed
(the gamma validator errors, and so does the eager parameter constructor
whatever the other fields hold), a non-negative gamma is accepted, and
`apply_gamma_correction` performs no gamma-sign validation at apply time:
it is the same pure elementwise map for every gamma, negative included. -/
theorem gamma_rejected_at_configuration_not_apply_time :
    (∀ g : ℚ, (∃ e, get_gamma_param (GammaInput.float g) = Except.error e)
      ↔ g < 0) ∧
    (∀ g : ℚ, 0 ≤ g →
      get_gamma_param (GammaInput.float g) = Except.ok g) ∧
    (∀ c : PowerImageConfigInput, ∀ g : ℚ, c.gamma = GammaInput.float g →
      g < 0 → ∃ e, powerImageParams c = Except.error e) ∧
    (∀ (arr : List ℝ) (g : ℝ),
      apply_gamma_correction arr g = (normalize arr).map fun x => x ^ g) := by
  refine ⟨fun g => ⟨fun h => ?_, fun h => ?_⟩, fun g hge => ?_,
    fun c g hcg hneg => ?_, fun arr g => rfl⟩
  · by_contra hge
    obtain ⟨e, he⟩ := h
    rw [not_lt] at hge
    simp only [get_gamma_param, if_neg (not_lt.mpr hge)] at he
    exact Except.noConfusion he
  · refine ⟨"gamma must be a non-negative value", ?_⟩
    simp only [get_gamma_param]
    rw [if_pos h]
  · simp only [get_gamma_param]
    rw [if_neg (not_lt.mpr hge)]
  · unfold powerImageParams
    cases hna : get_nlooks_param c.nlooks_freqa with
    | error e => exact ⟨e, rfl⟩
    | ok na =>
      cases hnb : get_nlooks_param c.nlooks_freqb with
      | error e => exact ⟨e, rfl⟩
      | ok nb =>
        refine ⟨"gamma must be a non-negative value", ?_⟩
        rw [hcg]
        simp only [get_gamma_param]
        rw [if_pos hneg]
        rfl

/-- C7 witness: gamma = −1/2 is rejected by the configuration validator,
gamma = 1/2 is accepted. -/
theorem gamma_rejected_witness :
    (∃ e, get_gamma_param (GammaInput.float (-1 / 2)) = Except.error e) ∧
    get_gamma_param (GammaInput.float (1 / 2)) = Except.ok (1 / 2) :=
  ⟨(gamma_rejected_at_configuration_not_apply_time.1 (-1 / 2)).mpr
      (by norm_num),
    gamma_rejected_at_configuration_not_apply_time.2.1 (1 / 2) (by norm_num)⟩

/-- C8: an explicitly supplied multilook factor is accepted exactly when it
is a single positive integer or a pair of two positive integers (any other
shape or non-positive entry errors), and when an explicit factor is
supplied for the image frequency it is used directly, bypassing
`compute_square_pixel_nlooks` (whatever that computation would return). -/
theorem nlooks_validation_and_override :
    (∀ i : ℤ, (∃ v, get_nlooks_param (NlooksInput.int i) = Except.ok v)
      ↔ 0 < i) ∧
    (∀ l : List ℤ,
      (∃ v, get_nlooks_param (NlooksInput.intList l) = Except.ok v)
      ↔ (l.length = 2 ∧ ∀ e ∈ l, 0 < e)) ∧
    (∀ i : ℤ, 0 < i → get_nlooks_param (NlooksInput.int i) =
      Except.ok (some (NlooksVal.single i))) ∧
    (∀ l : List ℤ, l.length = 2 → (∀ e ∈ l, 0 < e) →
      get_nlooks_param (NlooksInput.intList l) =
        Except.ok (some (NlooksVal.pair l))) ∧
    (∃ e, get_nlooks_param NlooksInput.other = Except.error e) ∧
    (∀ (compute : ℕ × ℕ → ℚ × ℚ → ℚ → ℕ × ℕ) (shape : ℕ × ℕ)
      (spacing : ℚ × ℚ) (mpix : ℚ) (v : ℕ × ℕ) (nb : Option (ℕ × ℕ)),
      select_nlooks compute shape spacing mpix Freq.A (some v) nb = v) ∧
    (∀ (compute : ℕ × ℕ → ℚ × ℚ → ℚ → ℕ × ℕ) (shape : ℕ × ℕ)
      (spacing : ℚ × ℚ) (mpix : ℚ) (na : Option (ℕ × ℕ)) (v : ℕ × ℕ),
      select_nlooks compute shape spacing mpix Freq.B na (some v) = v) := by
  refine ⟨fun i => ⟨fun h => ?_, fun h => ?_⟩,
    fun l => ⟨fun h => ?_, fun h => ?_⟩,
    fun i h => ?_, fun l h1 h2 => ?_,
    ⟨"nlooks must be a str, Param, or None", rfl⟩,
    fun compute shape spacing mpix v nb => rfl,
    fun compute shape spacing mpix na v => ?_⟩
  · by_contra hle
    rw [not_lt] at hle
    obtain ⟨v, hv⟩ := h
    simp only [get_nlooks_param, if_pos hle] at hv
    exact Except.noConfusion hv
  · refine ⟨some (NlooksVal.single i), ?_⟩
    simp only [get_nlooks_param]
    rw [if_neg (not_le.mpr h)]
  · obtain ⟨v, hv⟩ := h
    by_contra hcon
    have hbad : (∃ e ∈ l, e ≤ 0) ∨ ¬l.length = 2 := by
      rcases Classical.em (l.length = 2) with h2 | h2
      · left
        rw [not_and_or] at hcon
        rcases hcon with h3 | h3
        · exact absurd h2 h3
        · push_neg at h3
          obtain ⟨e, he, hle⟩ := h3
          exact ⟨e, he, by omega⟩
      · right
        exact h2
    simp only [get_nlooks_param, if_pos hbad] at hv
    exact Except.noConfusion hv
  · have hcond : ¬((∃ e ∈ l, e ≤ 0) ∨ ¬l.length = 2) := by
      push_neg
      exact ⟨h.2, h.1⟩
    refine ⟨some (NlooksVal.pair l), ?_⟩
    simp only [get_nlooks_param]
    rw [if_neg hcond]
  · simp only [get_nlooks_param]
    rw [if_neg (not_le.mpr h)]
  · have hcond : ¬((∃ e ∈ l, e ≤ 0) ∨ ¬l.length = 2) := by
      push_neg
      exact ⟨h2, h1⟩
    simp only [get_nlooks_param]
    rw [if_neg hcond]
  · cases na <;> rfl

/-- C8 witness: the explicit factor 4 is accepted, the pair [6, 7] is
accepted, the triple [1, 2, 3] and the non-positive 0 are rejected, and
with an explicit pair supplied for frequency A the square-pixel
computation is bypassed (its result is irrelevant). -/
theorem nlooks_validation_witness :
    get_nlooks_param (NlooksInput.int 4) =
      Except.ok (some (NlooksVal.single 4)) ∧
    get_nlooks_param (NlooksInput.intList [6, 7]) =
      Except.ok (some (NlooksVal.pair [6, 7])) ∧
    ¬(∃ v, get_nlooks_param (NlooksInput.intList [1, 2, 3]) = Except.ok v) ∧
    ¬(∃ v, get_nlooks_param (NlooksInput.int 0) = Except.ok v) ∧
    select_nlooks (fun _ _ _ => (9, 9)) (1000, 1000) (1, 1) 4 Freq.A
      (some (4, 4)) Option.none = (4, 4) :=
  ⟨nlooks_validation_and_override.2.2.1 4 (by norm_num),
    nlooks_validation_and_override.2.2.2.1 [6, 7] (by decide) (by decide),
    fun h => by
      have h2 := (nlooks_validation_and_override.2.1 [1, 2, 3]).mp h
      simp at h2,
    fun h => by
      have h2 := (nlooks_validation_and_override.1 0).mp h
      omega,
    nlooks_validation_and_override.2.2.2.2.2.1 (fun _ _ _ => (9, 9))
      (1000, 1000) (1, 1) 4 (4, 4) Option.none⟩

/-- C9 evidence: the tile-shape validator rejects −1 entries: every
preferred tile shape with a −1 full-extent entry is reported as malformed,
although the parameter documentation in the same function describes −1 as
meaning all rows / all columns. -/
theorem tile_shape_minus_one_rejected :
    get_tile_shape_param (TileShapeInput.intList [1024, -1]) =
      Except.error "tile_shape must be a sequence of two positive integers" ∧
    get_tile_shape_param (TileShapeInput.intList [128, -1]) =
      Except.error "tile_shape must be a sequence of two positive integers" ∧
    get_tile_shape_param (TileShapeInput.intList [-1, -1]) =
      Except.error "tile_shape must be a sequence of two positive integers" := by
  refine ⟨?_, ?_, ?_⟩ <;> rfl

/-! ### Tiled multilook reduction and histogram accumulation

The modules `utils/multilook.py`, `utils/tiling.py` and `utils/calc.py`
that rslc.py imports (`compute_multilooked_power_by_tiling`,
`compute_power_and_phase_histograms_by_tiling`, the TileIterator) are not
among the source files; the definitions below are modelled from the
specification (§3, §4.3, §4.4, §4.5).  Sample values are taken after the
per-sample transform (power or phase), so one counting model covers both
histograms. -/

/-- Modelled from the spec: the tile extent along one axis chosen by the
TileScheduler (§4.3) — the largest multiple of the look factor `f` that is
at most the preferred extent, at least one full look window; a negative
preferred extent (−1) means the full array extent along that axis. -/
def tileDim (pref : ℤ) (f extent : ℕ) : ℕ :=
  f * max 1 ((if pref < 0 then extent else pref.toNat) / f)

/-- Number of consecutive tiles covering an axis of length `extent` with
tile extent `t` (the last tile may be a remainder). -/
def numTiles (extent t : ℕ) : ℕ := (extent + t - 1) / t

/-- Number of multilooked output cells along one axis: ceil(extent / f). -/
def outDim (extent f : ℕ) : ℕ := (extent + f - 1) / f

/-- Source index window feeding output cell `n` along one axis: the rows
[n·f, (n+1)·f) clipped to the array (boundary windows are shorter, never
out of bounds). -/
def windowIco (extent f n : ℕ) : Finset ℕ :=
  Finset.Ico (n * f) (min ((n + 1) * f) extent)

/-- Modelled from the spec: the mean of the samples of window (I, J) of a
(sub)array of shape R × C (MultilookReducer §4.4; boundary windows average
over only the samples present). -/
def windowMean (arr : ℕ → ℕ → ℚ) (R C fr fc I J : ℕ) : ℚ :=
  (∑ r in windowIco R fr I, ∑ c in windowIco C fc J, arr r c) /
    (((windowIco R fr I).card * (windowIco C fc J).card : ℕ) : ℚ)

/-- Modelled from the spec: the whole-array multilooked reduction — output
cell (I, J) holds the mean of its window (§3 MultilookedArray). -/
def multilookDirect (arr : ℕ → ℕ → ℚ) (R C fr fc I J : ℕ) : ℚ :=
  windowMean arr R C fr fc I J

/-- Modelled from the spec: the tiled reduction
(`compute_multilooked_power_by_tiling`).  Each tile is read as a local
sub-array and multilooked independently; output cell (I, J) is produced by
the unique tile whose row/column ranges contain its window, at the
corresponding local window index, from the tile's local data only. -/
def multilookTiled (arr : ℕ → ℕ → ℚ) (R C fr fc : ℕ) (pr pc : ℤ)
    (I J : ℕ) : ℚ :=
  let tr := tileDim pr fr R
  let tc := tileDim pc fc C
  let ti := I * fr / tr
  let tj := J * fc / tc
  windowMean (fun i j => arr (ti * tr + i) (tj * tc + j))
    (min tr (R - ti * tr)) (min tc (C - tj * tc)) fr fc
    (I - ti * (tr / fr)) (J - tj * (tc / fc))

theorem le_numTiles_mul (extent t : ℕ) (ht : 0 < t) :
    extent ≤ numTiles extent t * t := by
  unfold numTiles
  have hdm := Nat.div_add_mod (extent + t - 1) t
  have hmod := Nat.mod_lt (extent + t - 1) ht
  rw [mul_comm]
  omega

theorem sum_range_blocks {M : Type} [AddCommMonoid M] (g : ℕ → M)
    (extent t : ℕ) (N : ℕ) :
    ∑ n in Finset.range N,
        ∑ r in Finset.Ico (n * t) (min (n * t + t) extent), g r
      = ∑ r in Finset.Ico 0 (min (N * t) extent), g r := by
  induction N with
  | zero => simp
  | succ N ih =>
    rw [Finset.sum_range_succ, ih]
    rcases le_or_lt extent (N * t) with hcase | hcase
    · have h1 : min (N * t) extent = extent := min_eq_right hcase
      have h2 : min (N * t + t) extent = extent := min_eq_right (by omega)
      have h3 : min ((N + 1) * t) extent = extent := by
        rw [add_mul, one_mul]
        exact min_eq_right (by omega)
      rw [h1, h2, h3,
        Finset.Ico_eq_empty (show ¬N * t < extent by omega),
        Finset.sum_empty, add_zero]
    · have h1 : min (N * t) extent = N * t := min_eq_left (by omega)
      have h3 : min ((N + 1) * t) extent = min (N * t + t) extent := by
        rw [add_mul, one_mul]
      rw [h1, h3]
      exact Finset.sum_Ico_consecutive g (by omega)
        (le_min (by omega) (le_of_lt hcase))

theorem sum_blocks {M : Type} [AddCommMonoid M] (g : ℕ → M)
    (extent t : ℕ) (ht : 0 < t) :
    ∑ n in Finset.range (numTiles extent t),
        ∑ r in Finset.Ico (n * t) (min (n * t + t) extent), g r
      = ∑ r in Finset.Ico 0 extent, g r := by
  rw [sum_range_blocks g extent t (numTiles extent t),
    min_eq_right (le_numTiles_mul extent t ht)]

theorem mul_lt_of_lt_outDim {extent f I : ℕ} (hf : 0 < f)
    (hI : I < outDim extent f) : I * f < extent := by
  unfold outDim at hI
  have h1 : (I + 1) * f ≤ extent + f - 1 := (Nat.le_div_iff_mul_le hf).mp hI
  rw [add_mul, one_mul] at h1
  omega

theorem lt_outDim_of_mul_lt {extent f I : ℕ} (hf : 0 < f)
    (h : I * f < extent) : I < outDim extent f := by
  by_contra hge
  rw [not_lt] at hge
  have h1 : outDim extent f * f ≤ I * f := Nat.mul_le_mul_right f hge
  have h2 : extent ≤ outDim extent f * f := le_numTiles_mul extent f hf
  omega

theorem window_partition {M : Type} [AddCommMonoid M] (g : ℕ → M)
    (extent f : ℕ) (hf : 0 < f) :
    ∑ n in Finset.range (outDim extent f), ∑ r in windowIco extent f n, g r
      = ∑ r in Finset.range extent, g r := by
  have hr : ∑ r in Finset.range extent, g r = ∑ r in Finset.Ico 0 extent, g r := by
    rw [Finset.range_eq_Ico]
  rw [hr, ← sum_blocks g extent f hf]
  refine Finset.sum_congr rfl fun n _ => ?_
  refine Finset.sum_congr ?_ fun r _ => rfl
  unfold windowIco
  rw [add_mul, one_mul]

theorem tile_axis_window (extent f k q m : ℕ) (hf : 0 < f)
    (hm : m < k) (hlt : (k * q + m) * f < extent) :
    Finset.map (addLeftEmbedding (q * (f * k)))
      (windowIco (min (f * k) (extent - q * (f * k))) f m)
      = windowIco extent f (k * q + m) := by
  have hrs_le : q * (f * k) ≤ (k * q + m) * f := by
    calc q * (f * k) = k * q * f := by ring
      _ ≤ k * q * f + m * f := Nat.le_add_right _ _
      _ = (k * q + m) * f := by ring
  have h2 : q * (f * k) ≤ extent := le_of_lt (lt_of_le_of_lt hrs_le hlt)
  have h1 : (m + 1) * f ≤ f * k := by
    calc (m + 1) * f ≤ k * f := Nat.mul_le_mul_right f (by omega)
      _ = f * k := by ring
  unfold windowIco
  rw [Finset.map_add_left_Ico]
  congr 1
  · ring
  · rw [← min_assoc, min_eq_left h1]
    rw [(min_add_add_left (q * (f * k)) ((m + 1) * f)
      (extent - q * (f * k))).symm]
    rw [Nat.add_sub_cancel' h2]
    congr 1
    ring

theorem multilookTiled_eq_direct (arr : ℕ → ℕ → ℚ) (R C fr fc : ℕ)
    (pr pc : ℤ) (hfr : 0 < fr) (hfc : 0 < fc) (I J : ℕ)
    (hI : I < outDim R fr) (hJ : J < outDim C fc) :
    multilookTiled arr R C fr fc pr pc I J =
      multilookDirect arr R C fr fc I J := by
  obtain ⟨k, hk, htr⟩ : ∃ k, 0 < k ∧ tileDim pr fr R = fr * k :=
    ⟨_, Nat.lt_of_lt_of_le Nat.zero_lt_one (Nat.le_max_left 1 _), rfl⟩
  obtain ⟨l, hl, htc⟩ : ∃ l, 0 < l ∧ tileDim pc fc C = fc * l :=
    ⟨_, Nat.lt_of_lt_of_le Nat.zero_lt_one (Nat.le_max_left 1 _), rfl⟩
  obtain ⟨q, m, hm, hIqm⟩ : ∃ q m, m < k ∧ I = k * q + m :=
    ⟨I / k, I % k, Nat.mod_lt _ hk, by rw [Nat.div_add_mod]⟩
  obtain ⟨p, n, hn, hJpn⟩ : ∃ p n, n < l ∧ J = l * p + n :=
    ⟨J / l, J % l, Nat.mod_lt _ hl, by rw [Nat.div_add_mod]⟩
  subst hIqm hJpn
  have hIlt : (k * q + m) * fr < R := mul_lt_of_lt_outDim hfr hI
  have hJlt : (l * p + n) * fc < C := mul_lt_of_lt_outDim hfc hJ
  have hdivI : (k * q + m) * fr / (fr * k) = q := by
    rw [show (k * q + m) * fr = m * fr + (fr * k) * q by ring]
    rw [Nat.add_mul_div_left _ _ (by positivity)]
    rw [Nat.div_eq_of_lt
      (by calc m * fr < k * fr := (Nat.mul_lt_mul_right hfr).mpr hm
        _ = fr * k := by ring)]
    omega
  have hdivJ : (l * p + n) * fc / (fc * l) = p := by
    rw [show (l * p + n) * fc = n * fc + (fc * l) * p by ring]
    rw [Nat.add_mul_div_left _ _ (by positivity)]
    rw [Nat.div_eq_of_lt
      (by calc n * fc < l * fc := (Nat.mul_lt_mul_right hfc).mpr hn
        _ = fc * l := by ring)]
    omega
  have hdivfI : fr * k / fr = k := Nat.mul_div_cancel_left k hfr
  have hdivfJ : fc * l / fc = l := Nat.mul_div_cancel_left l hfc
  simp only [multilookTiled, multilookDirect, windowMean]
  rw [htr, htc, hdivI, hdivJ, hdivfI, hdivfJ]
  have hsubI : k * q + m - q * k = m := by
    rw [mul_comm q k]
    omega
  have hsubJ : l * p + n - p * l = n := by
    rw [mul_comm p l]
    omega
  rw [hsubI, hsubJ]
  have hwinR := tile_axis_window R fr k q m hfr hm hIlt
  have hwinC := tile_axis_window C fc l p n hfc hn hJlt
  rw [← hwinR, ← hwinC]
  simp only [Finset.sum_map, Finset.card_map, addLeftEmbedding_apply]

/-- Modelled from the spec: bin membership with standard fixed-edge
histogram semantics (§4.5): half-open bins [e_i, e_{i+1}), except the last
bin, which also includes its right edge; values outside every bin are
dropped, not clamped. -/
def inBin (edges : List ℚ) (i : ℕ) (v : ℚ) : Prop :=
  edges.getD i 0 ≤ v ∧
    (if i + 2 = edges.length then v ≤ edges.getD (i + 1) 0
     else v < edges.getD (i + 1) 0)

instance (edges : List ℚ) (i : ℕ) (v : ℚ) : Decidable (inBin edges i v) := by
  unfold inBin
  infer_instance

/-- Contribution (0 or 1) of source sample (r, c) to bin `i`: counted when
it survives the decimation strides (every dr-th row, dc-th column,
anchored at the array origin) and its transformed value falls in the bin
(§4.5). -/
def sampleCount (vals : ℕ → ℕ → ℚ) (dr dc : ℕ) (edges : List ℚ)
    (i r c : ℕ) : ℕ :=
  if r % dr = 0 ∧ c % dc = 0 ∧ inBin edges i (vals r c) then 1 else 0

/-- Modelled from the spec: whole-array histogram counts for bin `i`
(HistogramAccumulator §4.5, single tile). -/
def histCountsDirect (vals : ℕ → ℕ → ℚ) (R C dr dc : ℕ) (edges : List ℚ)
    (i : ℕ) : ℕ :=
  ∑ r in Finset.range R, ∑ c in Finset.range C,
    sampleCount vals dr dc edges i r c

/-- Modelled from the spec: tiled histogram accumulation
(`compute_power_and_phase_histograms_by_tiling`) — the running total for
bin `i` accumulated tile by tile over the row-major tile sequence, with
tiles aligned to the decimation strides. -/
def histCountsTiled (vals : ℕ → ℕ → ℚ) (R C dr dc : ℕ) (edges : List ℚ)
    (pr pc : ℤ) (i : ℕ) : ℕ :=
  ∑ n in Finset.range (numTiles R (tileDim pr dr R)),
    ∑ m in Finset.range (numTiles C (tileDim pc dc C)),
      ∑ r in Finset.Ico (n * tileDim pr dr R)
          (min (n * tileDim pr dr R + tileDim pr dr R) R),
        ∑ c in Finset.Ico (m * tileDim pc dc C)
            (min (m * tileDim pc dc C + tileDim pc dc C) C),
          sampleCount vals dr dc edges i r c

theorem tileDim_pos (pref : ℤ) (f extent : ℕ) (hf : 0 < f) :
    0 < tileDim pref f extent :=
  Nat.mul_pos hf (Nat.lt_of_lt_of_le Nat.zero_lt_one (Nat.le_max_left 1 _))

theorem histCountsTiled_eq_direct (vals : ℕ → ℕ → ℚ) (R C dr dc : ℕ)
    (edges : List ℚ) (pr pc : ℤ) (i : ℕ) (hdr : 0 < dr) (hdc : 0 < dc) :
    histCountsTiled vals R C dr dc edges pr pc i =
      histCountsDirect vals R C dr dc edges i := by
  have htr : 0 < tileDim pr dr R := tileDim_pos pr dr R hdr
  have htc : 0 < tileDim pc dc C := tileDim_pos pc dc C hdc
  unfold histCountsTiled histCountsDirect
  calc ∑ n in Finset.range (numTiles R (tileDim pr dr R)),
        ∑ m in Finset.range (numTiles C (tileDim pc dc C)),
          ∑ r in Finset.Ico (n * tileDim pr dr R)
              (min (n * tileDim pr dr R + tileDim pr dr R) R),
            ∑ c in Finset.Ico (m * tileDim pc dc C)
                (min (m * tileDim pc dc C + tileDim pc dc C) C),
              sampleCount vals dr dc edges i r c
      = ∑ n in Finset.range (numTiles R (tileDim pr dr R)),
          ∑ r in Finset.Ico (n * tileDim pr dr R)
              (min (n * tileDim pr dr R + tileDim pr dr R) R),
            ∑ m in Finset.range (numTiles C (tileDim pc dc C)),
              ∑ c in Finset.Ico (m * tileDim pc dc C)
                  (min (m * tileDim pc dc C + tileDim pc dc C) C),
                sampleCount vals dr dc edges i r c := by
        exact Finset.sum_congr rfl fun n _ => Finset.sum_comm
    _ = ∑ n in Finset.range (numTiles R (tileDim pr dr R)),
          ∑ r in Finset.Ico (n * tileDim pr dr R)
              (min (n * tileDim pr dr R + tileDim pr dr R) R),
            ∑ c in Finset.Ico 0 C, sampleCount vals dr dc edges i r c := by
        exact Finset.sum_congr rfl fun n _ => Finset.sum_congr rfl fun r _ =>
          sum_blocks _ C _ htc
    _ = ∑ r in Finset.Ico 0 R, ∑ c in Finset.Ico 0 C,
          sampleCount vals dr dc edges i r c :=
        sum_blocks _ R _ htr
    _ = ∑ r in Finset.range R, ∑ c in Finset.range C,
          sampleCount vals dr dc edges i r c := by
        rw [← Finset.range_eq_Ico]

/-- C1: tiling invariance — for every fixed source array, look window,
decimation strides and histogram bin edges, the tiled multilooked output
and the tiled histogram counts are identical for any two preferred tile
shapes (−1 entries meaning full extent included), both being equal to the
single-tile (whole-array) reduction. -/
theorem tiling_invariance (arr vals : ℕ → ℕ → ℚ) (R C fr fc dr dc : ℕ)
    (edges : List ℚ) (pr1 pc1 pr2 pc2 : ℤ)
    (hfr : 0 < fr) (hfc : 0 < fc) (hdr : 0 < dr) (hdc : 0 < dc) :
    (∀ I J, I < outDim R fr → J < outDim C fc →
      multilookTiled arr R C fr fc pr1 pc1 I J =
        multilookTiled arr R C fr fc pr2 pc2 I J) ∧
    (∀ I J, I < outDim R fr → J < outDim C fc →
      multilookTiled arr R C fr fc pr1 pc1 I J =
        multilookDirect arr R C fr fc I J) ∧
    (∀ i, histCountsTiled vals R C dr dc edges pr1 pc1 i =
      histCountsTiled vals R C dr dc edges pr2 pc2 i) ∧
    (∀ i, histCountsTiled vals R C dr dc edges pr1 pc1 i =
      histCountsDirect vals R C dr dc edges i) := by
  refine ⟨fun I J hI hJ => ?_,
    fun I J hI hJ => multilookTiled_eq_direct arr R C fr fc pr1 pc1
      hfr hfc I J hI hJ,
    fun i => ?_,
    fun i => histCountsTiled_eq_direct vals R C dr dc edges pr1 pc1 i hdr hdc⟩
  · rw [multilookTiled_eq_direct arr R C fr fc pr1 pc1 hfr hfc I J hI hJ,
      multilookTiled_eq_direct arr R C fr fc pr2 pc2 hfr hfc I J hI hJ]
  · rw [histCountsTiled_eq_direct vals R C dr dc edges pr1 pc1 i hdr hdc,
      histCountsTiled_eq_direct vals R C dr dc edges pr2 pc2 i hdr hdc]

/-- C1 witness: on a concrete 5×3 array with look window (2, 2), stride 1
and bin edges [0, 10, 40], the tile shapes (32, 32) and (−1, −1) give
identical multilooked outputs and identical histogram counts. -/
theorem tiling_invariance_witness :
    (∀ I J, I < outDim 5 2 → J < outDim 3 2 →
      multilookTiled (fun r c => (r * 7 + c : ℚ)) 5 3 2 2 32 32 I J =
        multilookTiled (fun r c => (r * 7 + c : ℚ)) 5 3 2 2 (-1) (-1) I J) ∧
    (∀ I J, I < outDim 5 2 → J < outDim 3 2 →
      multilookTiled (fun r c => (r * 7 + c : ℚ)) 5 3 2 2 32 32 I J =
        multilookDirect (fun r c => (r * 7 + c : ℚ)) 5 3 2 2 I J) ∧
    (∀ i, histCountsTiled (fun r c => (r * 7 + c : ℚ)) 5 3 1 1 [0, 10, 40]
        32 32 i =
      histCountsTiled (fun r c => (r * 7 + c : ℚ)) 5 3 1 1 [0, 10, 40]
        (-1) (-1) i) ∧
    (∀ i, histCountsTiled (fun r c => (r * 7 + c : ℚ)) 5 3 1 1 [0, 10, 40]
        32 32 i =
      histCountsDirect (fun r c => (r * 7 + c : ℚ)) 5 3 1 1 [0, 10, 40] i) :=
  tiling_invariance (fun r c => (r * 7 + c : ℚ))
    (fun r c => (r * 7 + c : ℚ)) 5 3 2 2 1 1 [0, 10, 40] 32 32 (-1) (-1)
    (by decide) (by decide) (by decide) (by decide)

theorem lt_div_succ_mul (r f : ℕ) (hf : 0 < f) : r < (r / f + 1) * f := by
  rw [add_mul, one_mul, mul_comm]
  have h1 := Nat.div_add_mod r f
  have h2 := Nat.mod_lt r hf
  omega

theorem div_eq_of_window {r f I : ℕ} (h1 : I * f ≤ r) (h2 : r < (I + 1) * f) :
    r / f = I := by
  have hf : 0 < f := by
    rcases Nat.eq_zero_or_pos f with h | h
    · subst h
      omega
    · exact h
  have hd1 : I ≤ r / f := (Nat.le_div_iff_mul_le hf).mpr h1
  have hd2 : r / f < I + 1 := by
    by_contra hcon
    rw [not_lt] at hcon
    have : (I + 1) * f ≤ (r / f) * f := Nat.mul_le_mul_right f hcon
    have hrf : (r / f) * f ≤ r := Nat.div_mul_le_self r f
    omega
  omega

theorem windowIco_card_pos {extent f I : ℕ} (hf : 0 < f)
    (hI : I < outDim extent f) : 0 < (windowIco extent f I).card := by
  unfold windowIco
  rw [Nat.card_Ico]
  have h1 : I * f < extent := mul_lt_of_lt_outDim hf hI
  have h2 : I * f < (I + 1) * f := by
    rw [add_mul, one_mul]
    omega
  exact Nat.sub_pos_of_lt (lt_min h2 h1)

/-- C4: the multilooked output grid has ceil(1001/4) = 251 rows and
ceil(999/4) = 250 columns for a 1001×999 source with look window (4, 4);
every source sample lies in exactly one output window; the sum over all
output cells of window size × window mean equals the sum of all source
samples (no sample double-counted or dropped); and with tile preference
(300, −1) the tiled reduction of the 1001×999 array agrees with the
direct reduction everywhere. -/
theorem multilook_shape_and_exact_coverage :
    (outDim 1001 4 = 251 ∧ outDim 999 4 = 250) ∧
    (∀ R C fr fc : ℕ, 0 < fr → 0 < fc → ∀ r, r < R → ∀ c, c < C →
      ∃! IJ : ℕ × ℕ, IJ.1 < outDim R fr ∧ IJ.2 < outDim C fc ∧
        r ∈ windowIco R fr IJ.1 ∧ c ∈ windowIco C fc IJ.2) ∧
    (∀ (arr : ℕ → ℕ → ℚ) (R C fr fc : ℕ), 0 < fr → 0 < fc →
      ∑ I in Finset.range (outDim R fr), ∑ J in Finset.range (outDim C fc),
        (((windowIco R fr I).card * (windowIco C fc J).card : ℕ) : ℚ) *
          multilookDirect arr R C fr fc I J
        = ∑ r in Finset.range R, ∑ c in Finset.range C, arr r c) ∧
    (∀ (arr : ℕ → ℕ → ℚ) (I J : ℕ), I < outDim 1001 4 → J < outDim 999 4 →
      multilookTiled arr 1001 999 4 4 300 (-1) I J =
        multilookDirect arr 1001 999 4 4 I J) := by
  refine ⟨⟨by decide, by decide⟩, ?_, ?_, ?_⟩
  · intro R C fr fc hfr hfc r hr c hc
    refine ⟨⟨r / fr, c / fc⟩, ⟨?_, ?_, ?_, ?_⟩, ?_⟩
    · exact lt_outDim_of_mul_lt hfr
        (Nat.lt_of_le_of_lt (Nat.div_mul_le_self r fr) hr)
    · exact lt_outDim_of_mul_lt hfc
        (Nat.lt_of_le_of_lt (Nat.div_mul_le_self c fc) hc)
    · unfold windowIco
      rw [Finset.mem_Ico]
      exact ⟨Nat.div_mul_le_self r fr,
        lt_min (lt_div_succ_mul r fr hfr) hr⟩
    · unfold windowIco
      rw [Finset.mem_Ico]
      exact ⟨Nat.div_mul_le_self c fc,
        lt_min (lt_div_succ_mul c fc hfc) hc⟩
    · rintro ⟨I, J⟩ ⟨hI, hJ, hrI, hcJ⟩
      unfold windowIco at hrI hcJ
      rw [Finset.mem_Ico] at hrI hcJ
      have e1 : r / fr = I :=
        div_eq_of_window hrI.1 (lt_of_lt_of_le hrI.2 (min_le_left _ _))
      have e2 : c / fc = J :=
        div_eq_of_window hcJ.1 (lt_of_lt_of_le hcJ.2 (min_le_left _ _))
      exact Prod.ext e1.symm e2.symm
  · intro arr R C fr fc hfr hfc
    have hcell : ∀ I ∈ Finset.range (outDim R fr),
        ∀ J ∈ Finset.range (outDim C fc),
        (((windowIco R fr I).card * (windowIco C fc J).card : ℕ) : ℚ) *
          multilookDirect arr R C fr fc I J
          = ∑ r in windowIco R fr I, ∑ c in windowIco C fc J, arr r c := by
      intro I hI J hJ
      rw [Finset.mem_range] at hI hJ
      unfold multilookDirect windowMean
      rw [mul_comm, div_mul_cancel₀]
      rw [Nat.cast_ne_zero]
      exact Nat.mul_ne_zero (Nat.pos_iff_ne_zero.mp (windowIco_card_pos hfr hI))
        (Nat.pos_iff_ne_zero.mp (windowIco_card_pos hfc hJ))
    calc ∑ I in Finset.range (outDim R fr), ∑ J in Finset.range (outDim C fc),
          (((windowIco R fr I).card * (windowIco C fc J).card : ℕ) : ℚ) *
            multilookDirect arr R C fr fc I J
        = ∑ I in Finset.range (outDim R fr), ∑ J in Finset.range (outDim C fc),
            ∑ r in windowIco R fr I, ∑ c in windowIco C fc J, arr r c :=
          Finset.sum_congr rfl fun I hI =>
            Finset.sum_congr rfl fun J hJ => hcell I hI J hJ
      _ = ∑ I in Finset.range (outDim R fr), ∑ r in windowIco R fr I,
            ∑ J in Finset.range (outDim C fc), ∑ c in windowIco C fc J,
              arr r c :=
          Finset.sum_congr rfl fun I _ => Finset.sum_comm
      _ = ∑ I in Finset.range (outDim R fr), ∑ r in windowIco R fr I,
            ∑ c in Finset.range C, arr r c :=
          Finset.sum_congr rfl fun I _ => Finset.sum_congr rfl fun r _ =>
            window_partition _ C fc hfc
      _ = ∑ r in Finset.range R, ∑ c in Finset.range C, arr r c :=
          window_partition _ R fr hfr
  · intro arr I J hI hJ
    exact multilookTiled_eq_direct arr 1001 999 4 4 300 (-1)
      (by norm_num) (by norm_num) I J hI hJ

/-- C4 witness: the shape identities at (1001, 999) with window (4, 4),
the unique covering window of the concrete sample (4, 2) of a 5×3 array
with window (2, 2), the checksum identity on a concrete 5×3 array, and
agreement of the (300, −1)-tiled reduction with the direct one at output
cell (250, 249) of a concrete 1001×999 array. -/
theorem multilook_shape_witness :
    (outDim 1001 4 = 251 ∧ outDim 999 4 = 250) ∧
    (∃! IJ : ℕ × ℕ, IJ.1 < outDim 5 2 ∧ IJ.2 < outDim 3 2 ∧
      4 ∈ windowIco 5 2 IJ.1 ∧ 2 ∈ windowIco 3 2 IJ.2) ∧
    (∑ I in Finset.range (outDim 5 2), ∑ J in Finset.range (outDim 3 2),
      (((windowIco 5 2 I).card * (windowIco 3 2 J).card : ℕ) : ℚ) *
        multilookDirect (fun r c => (r * 3 + c : ℚ)) 5 3 2 2 I J
      = ∑ r in Finset.range 5, ∑ c in Finset.range 3,
          (fun r c => (r * 3 + c : ℚ)) r c) ∧
    (multilookTiled (fun r c => (r + c : ℚ)) 1001 999 4 4 300 (-1) 250 249 =
      multilookDirect (fun r c => (r + c : ℚ)) 1001 999 4 4 250 249) :=
  ⟨multilook_shape_and_exact_coverage.1,
    multilook_shape_and_exact_coverage.2.1 5 3 2 2 (by decide) (by decide)
      4 (by decide) 2 (by decide),
    multilook_shape_and_exact_coverage.2.2.1 (fun r c => (r * 3 + c : ℚ))
      5 3 2 2 (by decide) (by decide),
    multilook_shape_and_exact_coverage.2.2.2 (fun r c => (r + c : ℚ))
      250 249 (by decide) (by decide)⟩

/-- Width of histogram bin `i` (difference of consecutive edges). -/
def binWidth (edges : List ℚ) (i : ℕ) : ℚ :=
  edges.getD (i + 1) 0 - edges.getD i 0

/-- Modelled from the spec: the total number of valid (counted) samples of
an accumulation run — the sum of all bin counts (§4.5). -/
def totalValidSamples (vals : ℕ → ℕ → ℚ) (R C dr dc : ℕ)
    (edges : List ℚ) : ℕ :=
  ∑ i in Finset.range (edges.length - 1),
    histCountsDirect vals R C dr dc edges i

/-- Modelled from the spec: the finalized density,
density[i] = counts[i] / (total_valid_samples × bin_width[i]) (§4.5). -/
def histDensity (vals : ℕ → ℕ → ℚ) (R C dr dc : ℕ) (edges : List ℚ)
    (i : ℕ) : ℚ :=
  (histCountsDirect vals R C dr dc edges i : ℚ) /
    ((totalValidSamples vals R C dr dc edges : ℚ) * binWidth edges i)

theorem sum_inBin_eq_one (edges : List ℚ) (v : ℚ)
    (hlen : 2 ≤ edges.length) (hchain : List.Chain' (· < ·) edges)
    (hlo : edges.getD 0 0 ≤ v)
    (hhi : v ≤ edges.getD (edges.length - 1) 0) :
    ∑ i in Finset.range (edges.length - 1),
      (if inBin edges i v then 1 else 0) = (1 : ℕ) := by
  have hpair : List.Pairwise (· < ·) edges :=
    List.chain'_iff_pairwise.mp hchain
  have hmono : ∀ a b : ℕ, a < b → b < edges.length →
      edges.getD a 0 < edges.getD b 0 := by
    intro a b hab hb
    rw [List.getD_eq_getElem _ _ (by omega), List.getD_eq_getElem _ _ hb]
    exact List.pairwise_iff_get.mp hpair ⟨a, by omega⟩ ⟨b, hb⟩ hab
  have hmono_le : ∀ a b : ℕ, a ≤ b → b < edges.length →
      edges.getD a 0 ≤ edges.getD b 0 := by
    intro a b hab hb
    rcases Nat.lt_or_ge a b with h | h
    · exact le_of_lt (hmono a b h hb)
    · have heq : a = b := by omega
      subst heq
      exact le_refl _
  have hS : ((Finset.range (edges.length - 1)).filter
      (fun i => edges.getD i 0 ≤ v)).Nonempty := by
    refine ⟨0, ?_⟩
    rw [Finset.mem_filter, Finset.mem_range]
    exact ⟨by omega, hlo⟩
  obtain ⟨i0, hi0⟩ : ∃ i0, i0 = ((Finset.range (edges.length - 1)).filter
      (fun i => edges.getD i 0 ≤ v)).max' hS := ⟨_, rfl⟩
  have hi0mem : i0 ∈ (Finset.range (edges.length - 1)).filter
      (fun i => edges.getD i 0 ≤ v) := by
    rw [hi0]
    exact Finset.max'_mem _ hS
  rw [Finset.mem_filter, Finset.mem_range] at hi0mem
  obtain ⟨hi0lt, hi0le⟩ := hi0mem
  have hle_max : ∀ j, j < edges.length - 1 → edges.getD j 0 ≤ v → j ≤ i0 := by
    intro j hj hjle
    rw [hi0]
    refine Finset.le_max' _ j ?_
    rw [Finset.mem_filter, Finset.mem_range]
    exact ⟨hj, hjle⟩
  have hbin0 : inBin edges i0 v := by
    refine ⟨hi0le, ?_⟩
    rcases Classical.em (i0 + 2 = edges.length) with hcase | hcase
    · rw [if_pos hcase]
      have he : i0 + 1 = edges.length - 1 := by omega
      rw [he]
      exact hhi
    · rw [if_neg hcase]
      by_contra hge
      rw [not_lt] at hge
      have hj : i0 + 1 ≤ i0 := hle_max (i0 + 1) (by omega) hge
      omega
  have hsingle : (Finset.range (edges.length - 1)).filter
      (fun i => inBin edges i v) = {i0} := by
    rw [Finset.eq_singleton_iff_unique_mem]
    constructor
    · rw [Finset.mem_filter, Finset.mem_range]
      exact ⟨hi0lt, hbin0⟩
    · intro b hb
      rw [Finset.mem_filter, Finset.mem_range] at hb
      obtain ⟨hblt, hbl, hbu⟩ := hb
      have hble : b ≤ i0 := hle_max b hblt hbl
      by_contra hne
      have hblt2 : b < i0 := by omega
      rcases Classical.em (b + 2 = edges.length) with hbc | hbc
      · omega
      · rw [if_neg hbc] at hbu
        have h1 : edges.getD (b + 1) 0 ≤ edges.getD i0 0 :=
          hmono_le (b + 1) i0 (by omega) (by omega)
        have h2 : v < v := lt_of_lt_of_le hbu (le_trans h1 hi0le)
        exact lt_irrefl v h2
  rw [← Finset.card_filter, hsingle, Finset.card_singleton]

/-- C5: with decimation ratio 1, strictly increasing bin edges spanning
the full data range, and a non-empty source, the finalized density equals
counts / (total_valid_samples × bin_width) binwise, the total number of
valid samples is the whole grid, and the densities integrate to exactly 1:
sum over bins of density × width = 1. -/
theorem histogram_density_integrates_to_one (vals : ℕ → ℕ → ℚ) (R C : ℕ)
    (edges : List ℚ) (hR : 0 < R) (hC : 0 < C) (hlen : 2 ≤ edges.length)
    (hchain : List.Chain' (· < ·) edges)
    (hrange : ∀ r, r < R → ∀ c, c < C →
      edges.getD 0 0 ≤ vals r c ∧
        vals r c ≤ edges.getD (edges.length - 1) 0) :
    (∀ i, histDensity vals R C 1 1 edges i =
      (histCountsDirect vals R C 1 1 edges i : ℚ) /
        ((totalValidSamples vals R C 1 1 edges : ℚ) * binWidth edges i)) ∧
    totalValidSamples vals R C 1 1 edges = R * C ∧
    ∑ i in Finset.range (edges.length - 1),
      histDensity vals R C 1 1 edges i * binWidth edges i = 1 := by
  have hpair : List.Pairwise (· < ·) edges :=
    List.chain'_iff_pairwise.mp hchain
  have hmono : ∀ a b : ℕ, a < b → b < edges.length →
      edges.getD a 0 < edges.getD b 0 := by
    intro a b hab hb
    rw [List.getD_eq_getElem _ _ (by omega), List.getD_eq_getElem _ _ hb]
    exact List.pairwise_iff_get.mp hpair ⟨a, by omega⟩ ⟨b, hb⟩ hab
  have hsample : ∀ i r c, sampleCount vals 1 1 edges i r c =
      if inBin edges i (vals r c) then 1 else 0 := by
    intro i r c
    simp [sampleCount, Nat.mod_one]
  have htotal : totalValidSamples vals R C 1 1 edges = R * C := by
    unfold totalValidSamples histCountsDirect
    rw [Finset.sum_comm]
    calc ∑ r in Finset.range R, ∑ i in Finset.range (edges.length - 1),
          ∑ c in Finset.range C, sampleCount vals 1 1 edges i r c
        = ∑ r in Finset.range R, ∑ c in Finset.range C,
            ∑ i in Finset.range (edges.length - 1),
              sampleCount vals 1 1 edges i r c :=
          Finset.sum_congr rfl fun r _ => Finset.sum_comm
      _ = ∑ r in Finset.range R, ∑ c in Finset.range C, 1 := by
          refine Finset.sum_congr rfl fun r hr => ?_
          refine Finset.sum_congr rfl fun c hc => ?_
          rw [Finset.mem_range] at hr hc
          obtain ⟨h1, h2⟩ := hrange r hr c hc
          calc ∑ i in Finset.range (edges.length - 1),
                sampleCount vals 1 1 edges i r c
              = ∑ i in Finset.range (edges.length - 1),
                  (if inBin edges i (vals r c) then 1 else 0) :=
                Finset.sum_congr rfl fun i _ => hsample i r c
            _ = 1 := sum_inBin_eq_one edges (vals r c) hlen hchain h1 h2
      _ = R * C := by simp [Finset.sum_const, Finset.card_range]
  have hT : (totalValidSamples vals R C 1 1 edges : ℚ) ≠ 0 := by
    rw [htotal]
    rw [Nat.cast_ne_zero]
    exact Nat.mul_ne_zero (by omega) (by omega)
  refine ⟨fun i => rfl, htotal, ?_⟩
  calc ∑ i in Finset.range (edges.length - 1),
        histDensity vals R C 1 1 edges i * binWidth edges i
      = ∑ i in Finset.range (edges.length - 1),
          (histCountsDirect vals R C 1 1 edges i : ℚ) /
            (totalValidSamples vals R C 1 1 edges : ℚ) := by
        refine Finset.sum_congr rfl fun i hi => ?_
        rw [Finset.mem_range] at hi
        have hw : binWidth edges i ≠ 0 := by
          unfold binWidth
          have := hmono i (i + 1) (by omega) (by omega)
          intro hzero
          rw [sub_eq_zero] at hzero
          rw [hzero] at this
          exact lt_irrefl _ this
        unfold histDensity
        rw [div_mul_eq_mul_div, mul_comm (totalValidSamples vals R C 1 1 edges : ℚ)
          (binWidth edges i), ← div_div, mul_div_cancel_right₀ _ hw]
      _ = ((∑ i in Finset.range (edges.length - 1),
            histCountsDirect vals R C 1 1 edges i : ℕ) : ℚ) /
            (totalValidSamples vals R C 1 1 edges : ℚ) := by
        rw [← Finset.sum_div, Nat.cast_sum]
      _ = 1 := div_self hT

/-- C5 witness: on the concrete 5×3 array r·7 + c with edges [0, 10, 40]
and decimation 1, the total valid sample count is 15 and the densities
integrate to exactly 1. -/
theorem histogram_density_witness :
    ((∀ i, histDensity (fun r c => (r * 7 + c : ℚ)) 5 3 1 1 [0, 10, 40] i =
      (histCountsDirect (fun r c => (r * 7 + c : ℚ)) 5 3 1 1 [0, 10, 40] i
          : ℚ) /
        ((totalValidSamples (fun r c => (r * 7 + c : ℚ)) 5 3 1 1 [0, 10, 40]
            : ℚ) * binWidth [0, 10, 40] i)) ∧
    totalValidSamples (fun r c => (r * 7 + c : ℚ)) 5 3 1 1 [0, 10, 40] =
      5 * 3 ∧
    ∑ i in Finset.range ([(0 : ℚ), 10, 40].length - 1),
      histDensity (fun r c => (r * 7 + c : ℚ)) 5 3 1 1 [0, 10, 40] i *
        binWidth [0, 10, 40] i = 1) :=
  histogram_density_integrates_to_one (fun r c => (r * 7 + c : ℚ)) 5 3
    [0, 10, 40] (by decide) (by decide) (by decide)
    (by norm_num [List.chain'_cons, List.chain'_singleton])
    (by
      intro r hr c hc
      interval_cases r <;> interval_cases c <;> constructor <;> norm_num)

end Nisarqa
